import Mathlib

/-!
Shallow embedding of the base64 block codec of `src/openssl/src/base64.rs`.

Byte strings (Rust `&[u8]`, `Vec<u8>`, and the UTF-8 bytes of `&str`) are
modelled as `List Nat`, with the type invariant `∀ x ∈ s, x < 256` carried as
an explicit hypothesis where it matters.  Rust `c_int` values are modelled as
`Int` together with explicit signed 32-bit range checks; `i32` division and
remainder truncate toward zero, hence `Int.tdiv` and `Int.tmod`.  A Rust
panic (a failed `assert!` or an `unwrap` of `None`) is modelled as `none` for
`encode_block` and as `DecodeOutcome.panic` for `decode_block`; the
recoverable `ErrorStack` error of `decode_block` is `DecodeOutcome.err`.
-/

/-- Outcome of `decode_block`: a successfully decoded byte vector `Ok(v)`, a
recoverable `ErrorStack` error, or a panic (assertion or unwrap failure). -/
inductive DecodeOutcome where
  | ok : List Nat → DecodeOutcome
  | err : DecodeOutcome
  | panic : DecodeOutcome
deriving DecidableEq

/-- Value of `c_int::max_value()` (signed 32-bit maximum), as a natural
number, used for the `assert!(src.len() <= c_int::max_value() as usize)`
precondition checks. -/
def INT_MAX_NAT : Nat := 2147483647

/-- Lower end of the signed 32-bit `c_int` range. -/
def c_int_min : Int := -2147483648

/-- Upper end of the signed 32-bit `c_int` range. -/
def c_int_max : Int := 2147483647

/-- Rust `i32::checked_mul`: the exact product when it lies in the signed
32-bit range, `none` on overflow. -/
def checked_mul (a b : Int) : Option Int :=
  if c_int_min ≤ a * b ∧ a * b ≤ c_int_max then some (a * b) else none

/-- Rust `i32::checked_add`: the exact sum when it lies in the signed
32-bit range, `none` on overflow. -/
def checked_add (a b : Int) : Option Int :=
  if c_int_min ≤ a + b ∧ a + b ≤ c_int_max then some (a + b) else none

/-- The private `encoded_len` of `base64.rs`: output-buffer size for
encoding `src_len` input bytes, including the nul sentinel slot, with every
arithmetic step overflow-checked (`?` propagates `None`). -/
def encoded_len (src_len : Int) : Option Int :=
  (checked_mul (Int.tdiv src_len 3) 4).bind fun l0 =>
    (if Int.tmod src_len 3 ≠ 0 then checked_add l0 4 else some l0).bind fun l1 =>
      checked_add l1 1

/-- The private `decoded_len` of `base64.rs`: worst-case output-buffer size
for decoding `src_len` input characters, with checked arithmetic. -/
def decoded_len (src_len : Int) : Option Int :=
  (checked_mul (Int.tdiv src_len 4) 3).bind fun l0 =>
    if Int.tmod src_len 4 ≠ 0 then checked_add l0 3 else some l0

/-- Modelled from the spec: the fixed standard 64-symbol base64 alphabet
(`A`-`Z`, `a`-`z`, `0`-`9`, `+`, `/`), as the map from a 6-bit value to the
ASCII code of its symbol. -/
def b64Char (n : Nat) : Nat :=
  if n < 26 then 65 + n
  else if n < 52 then 97 + (n - 26)
  else if n < 62 then 48 + (n - 52)
  else if n = 62 then 43
  else 47

/-- Modelled from the spec: the inverse alphabet lookup used by the decode
transform.  The padding symbol `=` (ASCII 61) decodes as the 6-bit value 0,
matching the transform treating a padded group as three full bytes; any
character outside the alphabet and `=` is invalid data. -/
def b64Inv (c : Nat) : Option Nat :=
  if 65 ≤ c ∧ c ≤ 90 then some (c - 65)
  else if 97 ≤ c ∧ c ≤ 122 then some (c - 97 + 26)
  else if 48 ≤ c ∧ c ≤ 57 then some (c - 48 + 52)
  else if c = 43 then some 62
  else if c = 47 then some 63
  else if c = 61 then some 0
  else none

/-- A byte is a base64 symbol: in the 64-character alphabet or the padding
symbol `=`. -/
def isB64Sym (c : Nat) : Bool :=
  decide ((65 ≤ c ∧ c ≤ 90) ∨ (97 ≤ c ∧ c ≤ 122) ∨ (48 ≤ c ∧ c ≤ 57) ∨
    c = 43 ∨ c = 47 ∨ c = 61)

/-- Modelled from the spec: the encode block transform maps every 3 raw
bytes to 4 alphabet characters, padding the final incomplete group with one
`=` when 2 bytes remain and two `=` when 1 byte remains. -/
def encodeGroups : List Nat → List Nat
  | b1 :: b2 :: b3 :: rest =>
      b64Char (b1 / 4) :: b64Char (b1 % 4 * 16 + b2 / 16) ::
        b64Char (b2 % 16 * 4 + b3 / 64) :: b64Char (b3 % 64) ::
        encodeGroups rest
  | [b1, b2] =>
      [b64Char (b1 / 4), b64Char (b1 % 4 * 16 + b2 / 16),
        b64Char (b2 % 16 * 4), 61]
  | [b1] =>
      [b64Char (b1 / 4), b64Char (b1 % 4 * 16), 61, 61]
  | [] => []

/-- Modelled from the spec: the decode block transform maps every 4
characters back to 3 raw bytes; an input length that is not a multiple of 4
or a character outside the alphabet (and `=`) is a failure. -/
def decodeGroups : List Nat → Option (List Nat)
  | [] => some []
  | c1 :: c2 :: c3 :: c4 :: rest =>
    (b64Inv c1).bind fun v1 =>
    (b64Inv c2).bind fun v2 =>
    (b64Inv c3).bind fun v3 =>
    (b64Inv c4).bind fun v4 =>
    (decodeGroups rest).bind fun tl =>
    some ((v1 * 4 + v2 / 16) :: (v2 % 16 * 16 + v3 / 4) ::
      (v3 % 4 * 64 + v4) :: tl)
  | _ => none

/-- Modelled from the spec: the native transform `EVP_EncodeBlock` writes
the base64 characters followed by one nul sentinel byte into the output
buffer and returns the number of characters written, excluding the
sentinel.  The pair is (bytes written, return value). -/
def EVP_EncodeBlock (src : List Nat) : List Nat × Nat :=
  (encodeGroups src ++ [0], (encodeGroups src).length)

/-- Modelled from the spec: the native transform `EVP_DecodeBlock` decodes
groups of 4 characters to 3 bytes, returning the bytes written and the
count of bytes written, or `none` (a negative C return, turned into an
`ErrorStack` by `cvt_n`) on malformed input. -/
def EVP_DecodeBlock (src : List Nat) : Option (List Nat × Nat) :=
  (decodeGroups src).map fun bytes => (bytes, bytes.length)

/-- Length, in bytes, of the Unicode whitespace character whose UTF-8
encoding starts the byte string, or 0 when the string does not start with
whitespace.  These are exactly the code points of Rust
`char::is_whitespace` (Unicode property White_Space), encoded in UTF-8. -/
def wsHead : List Nat → Nat
  | [] => 0
  | c :: rest =>
    if c = 9 ∨ c = 10 ∨ c = 11 ∨ c = 12 ∨ c = 13 ∨ c = 32 then 1
    else if c = 194 then
      match rest with
      | d :: _ => if d = 133 ∨ d = 160 then 2 else 0
      | [] => 0
    else if c = 225 then
      match rest with
      | 154 :: 128 :: _ => 3
      | _ => 0
    else if c = 226 then
      match rest with
      | d :: e :: _ =>
        if (d = 128 ∧ (128 ≤ e ∧ e ≤ 138 ∨ e = 168 ∨ e = 169 ∨ e = 175)) ∨
            (d = 129 ∧ e = 159) then 3
        else 0
      | _ => 0
    else if c = 227 then
      match rest with
      | 128 :: 128 :: _ => 3
      | _ => 0
    else 0

/-- Fuel-bounded iteration of leading-whitespace removal.  Every step drops
at least one byte, so `fuel ≥ s.length` makes the iteration run to its fixed
point. -/
def trimStartFuel : Nat → List Nat → List Nat
  | 0, s => s
  | fuel + 1, s =>
    match wsHead s with
    | 0 => s
    | k + 1 => trimStartFuel fuel (List.drop (k + 1) s)

/-- Modelled from the spec: removal of leading whitespace (first half of
Rust `str::trim`), working on the UTF-8 bytes. -/
def trimStart (s : List Nat) : List Nat := trimStartFuel s.length s

/-- Length, in bytes, of the Unicode whitespace character whose UTF-8
encoding ends the string, read off the REVERSED byte string, or 0. -/
def wsHeadRev : List Nat → Nat
  | [] => 0
  | c :: rest =>
    if c = 9 ∨ c = 10 ∨ c = 11 ∨ c = 12 ∨ c = 13 ∨ c = 32 then 1
    else if c = 133 then
      match rest with
      | 194 :: _ => 2
      | 128 :: 226 :: _ => 3
      | _ => 0
    else if c = 160 then
      match rest with
      | 194 :: _ => 2
      | _ => 0
    else if c = 128 then
      match rest with
      | 154 :: 225 :: _ => 3
      | 128 :: 226 :: _ => 3
      | 128 :: 227 :: _ => 3
      | _ => 0
    else if (129 ≤ c ∧ c ≤ 138) ∨ c = 168 ∨ c = 169 ∨ c = 175 then
      match rest with
      | 128 :: 226 :: _ => 3
      | _ => 0
    else if c = 159 then
      match rest with
      | 129 :: 226 :: _ => 3
      | _ => 0
    else 0

/-- Fuel-bounded iteration of trailing-whitespace removal, working on the
reversed byte string. -/
def trimEndRevFuel : Nat → List Nat → List Nat
  | 0, s => s
  | fuel + 1, s =>
    match wsHeadRev s with
    | 0 => s
    | k + 1 => trimEndRevFuel fuel (List.drop (k + 1) s)

/-- Modelled from the spec: removal of trailing whitespace, expressed on the
reversed byte string. -/
def trimEndRev (s : List Nat) : List Nat := trimEndRevFuel s.length s

/-- Modelled from the spec: Rust `str::trim`, removing leading and trailing
Unicode whitespace at the UTF-8 byte level. -/
def rustTrim (s : List Nat) : List Nat :=
  (trimEndRev (trimStart s).reverse).reverse

/-- Decides whether the first list is an initial run of the second. -/
def agreesAhead : List Nat → List Nat → Bool
  | [], _ => true
  | _ :: _, [] => false
  | a :: t, b :: s => a == b && agreesAhead t s

/-- Rust `ends_with`: the string `s` ends with the suffix `t`. -/
def endsWith (s t : List Nat) : Bool :=
  agreesAhead t.reverse s.reverse

/-- The padding-stripping step of `decode_block`: when the trimmed source
text ends with `=` pop one decoded byte, and when it ends with `==` pop one
more. -/
def stripPad (t out : List Nat) : List Nat :=
  if endsWith t [61] then
    if endsWith t [61, 61] then out.dropLast.dropLast else out.dropLast
  else out

/-- The public `encode_block` of `base64.rs`: assert the length
precondition, compute the buffer size with `encoded_len` (`unwrap` panics
on `None`), allocate a zeroed buffer, run the transform, truncate to the
reported count.  `none` models a panic. -/
def encode_block (src : List Nat) : Option (List Nat) :=
  if src.length ≤ INT_MAX_NAT then
    (encoded_len (Int.ofNat src.length)).elim none fun len =>
      let res := EVP_EncodeBlock src
      some (List.take res.2 (res.1 ++ List.replicate (len.toNat - res.1.length) 0))
  else none

/-- The public `decode_block` of `base64.rs`: trim whitespace, assert the
length precondition, compute the buffer size with `decoded_len` (`unwrap`
panics on `None`), allocate a zeroed buffer, run the transform (`cvt_n`
turns a negative return into `Err`), truncate to the reported count, strip
padding. -/
def decode_block (src : List Nat) : DecodeOutcome :=
  let t := rustTrim src
  if t.length ≤ INT_MAX_NAT then
    (decoded_len (Int.ofNat t.length)).elim DecodeOutcome.panic fun len =>
      (EVP_DecodeBlock t).elim DecodeOutcome.err fun res =>
        DecodeOutcome.ok (stripPad t
          (List.take res.2 (res.1 ++ List.replicate (len.toNat - res.1.length) 0)))
  else DecodeOutcome.panic

/-- Visible encoded output length (without the sentinel) for `n` input
bytes: `4 * ceil(n / 3)`. -/
def encLenNat (n : Nat) : Nat :=
  n / 3 * 4 + (if n % 3 = 0 then 0 else 4)

/-- Number of trailing zero filler bytes the decode transform produces for
an input of `n` bytes before padding stripping. -/
def padFill (n : Nat) : Nat :=
  (3 - n % 3) % 3

/-- Number of decoded bytes the padding-stripping step of `decode_block`
removes, as a function of the trimmed source text. -/
def padCount (t : List Nat) : Nat :=
  if endsWith t [61, 61] = true then 2
  else if endsWith t [61] = true then 1
  else 0

/-- Rust `i32` division truncates toward zero; on the cast of a natural
number it agrees with natural-number division. -/
theorem tdiv_ofNat_three (m : Nat) : Int.tdiv (Int.ofNat m) 3 = Int.ofNat (m / 3) := rfl

/-- Rust `i32` remainder on the cast of a natural number agrees with
natural-number remainder. -/
theorem tmod_ofNat_three (m : Nat) : Int.tmod (Int.ofNat m) 3 = Int.ofNat (m % 3) := rfl

/-- Truncating division by 4 on a cast natural number. -/
theorem tdiv_ofNat_four (m : Nat) : Int.tdiv (Int.ofNat m) 4 = Int.ofNat (m / 4) := rfl

/-- Truncating remainder by 4 on a cast natural number. -/
theorem tmod_ofNat_four (m : Nat) : Int.tmod (Int.ofNat m) 4 = Int.ofNat (m % 4) := rfl

/-- Checked multiplication of a nonnegative value by 4 in natural terms. -/
theorem checked_mul_ofNat4 (a : Nat) :
    checked_mul (Int.ofNat a) 4 =
      if a * 4 ≤ 2147483647 then some (Int.ofNat (a * 4)) else none := by
  unfold checked_mul
  have he : Int.ofNat a * 4 = Int.ofNat (a * 4) := by
    simp only [Int.ofNat_eq_natCast]
    push_cast
    ring
  rw [he, c_int_min, c_int_max]
  by_cases hc : a * 4 ≤ 2147483647
  · rw [if_pos hc, if_pos]
    refine ⟨by simp only [Int.ofNat_eq_natCast]; omega, by simp only [Int.ofNat_eq_natCast]; omega⟩
  · rw [if_neg hc, if_neg]
    intro hcon
    rcases hcon with ⟨h1, h2⟩
    simp only [Int.ofNat_eq_natCast] at h2
    omega

/-- Checked multiplication of a nonnegative value by 3 in natural terms. -/
theorem checked_mul_ofNat3 (a : Nat) :
    checked_mul (Int.ofNat a) 3 =
      if a * 3 ≤ 2147483647 then some (Int.ofNat (a * 3)) else none := by
  unfold checked_mul
  have he : Int.ofNat a * 3 = Int.ofNat (a * 3) := by
    simp only [Int.ofNat_eq_natCast]
    push_cast
    ring
  rw [he, c_int_min, c_int_max]
  by_cases hc : a * 3 ≤ 2147483647
  · rw [if_pos hc, if_pos]
    refine ⟨by simp only [Int.ofNat_eq_natCast]; omega, by simp only [Int.ofNat_eq_natCast]; omega⟩
  · rw [if_neg hc, if_neg]
    intro hcon
    rcases hcon with ⟨h1, h2⟩
    simp only [Int.ofNat_eq_natCast] at h2
    omega

/-- Checked addition of 4 to a nonnegative value in natural terms. -/
theorem checked_add_ofNat4 (a : Nat) :
    checked_add (Int.ofNat a) 4 =
      if a + 4 ≤ 2147483647 then some (Int.ofNat (a + 4)) else none := by
  unfold checked_add
  have he : Int.ofNat a + 4 = Int.ofNat (a + 4) := by
    simp only [Int.ofNat_eq_natCast]
    push_cast
    ring
  rw [he, c_int_min, c_int_max]
  by_cases hc : a + 4 ≤ 2147483647
  · rw [if_pos hc, if_pos]
    refine ⟨by simp only [Int.ofNat_eq_natCast]; omega, by simp only [Int.ofNat_eq_natCast]; omega⟩
  · rw [if_neg hc, if_neg]
    intro hcon
    rcases hcon with ⟨h1, h2⟩
    simp only [Int.ofNat_eq_natCast] at h2
    omega

/-- Checked addition of 3 to a nonnegative value in natural terms. -/
theorem checked_add_ofNat3 (a : Nat) :
    checked_add (Int.ofNat a) 3 =
      if a + 3 ≤ 2147483647 then some (Int.ofNat (a + 3)) else none := by
  unfold checked_add
  have he : Int.ofNat a + 3 = Int.ofNat (a + 3) := by
    simp only [Int.ofNat_eq_natCast]
    push_cast
    ring
  rw [he, c_int_min, c_int_max]
  by_cases hc : a + 3 ≤ 2147483647
  · rw [if_pos hc, if_pos]
    refine ⟨by simp only [Int.ofNat_eq_natCast]; omega, by simp only [Int.ofNat_eq_natCast]; omega⟩
  · rw [if_neg hc, if_neg]
    intro hcon
    rcases hcon with ⟨h1, h2⟩
    simp only [Int.ofNat_eq_natCast] at h2
    omega

/-- Checked addition of the sentinel slot in natural terms. -/
theorem checked_add_ofNat1 (a : Nat) :
    checked_add (Int.ofNat a) 1 =
      if a + 1 ≤ 2147483647 then some (Int.ofNat (a + 1)) else none := by
  unfold checked_add
  have he : Int.ofNat a + 1 = Int.ofNat (a + 1) := by
    simp only [Int.ofNat_eq_natCast]
    push_cast
    ring
  rw [he, c_int_min, c_int_max]
  by_cases hc : a + 1 ≤ 2147483647
  · rw [if_pos hc, if_pos]
    refine ⟨by simp only [Int.ofNat_eq_natCast]; omega, by simp only [Int.ofNat_eq_natCast]; omega⟩
  · rw [if_neg hc, if_neg]
    intro hcon
    rcases hcon with ⟨h1, h2⟩
    simp only [Int.ofNat_eq_natCast] at h2
    omega

/-- Binding the final checked sentinel addition onto a present value. -/
theorem bind_checked_add1 (a : Nat) :
    (some (Int.ofNat a)).bind (fun l1 => checked_add l1 1) =
      if a + 1 ≤ 2147483647 then some (Int.ofNat (a + 1)) else none := by
  rw [Option.some_bind]
  exact checked_add_ofNat1 a

/-- When the first checked multiplication succeeds, `encoded_len` reduces to
the remaining checked chain. -/
theorem encoded_len_bind_form (n : Nat) (hmul : n / 3 * 4 ≤ 2147483647) :
    encoded_len (Int.ofNat n) =
      ((if Int.ofNat (n % 3) ≠ 0 then checked_add (Int.ofNat (n / 3 * 4)) 4
        else some (Int.ofNat (n / 3 * 4))).bind fun l1 => checked_add l1 1) := by
  unfold encoded_len
  rw [tdiv_ofNat_three]
  simp only [tmod_ofNat_three, checked_mul_ofNat4]
  rw [if_pos hmul]
  simp only [Option.some_bind]

/-- When the first checked multiplication overflows, `encoded_len` fails. -/
theorem encoded_len_of_mul_overflow (n : Nat) (hmul : ¬ n / 3 * 4 ≤ 2147483647) :
    encoded_len (Int.ofNat n) = none := by
  unfold encoded_len
  rw [tdiv_ofNat_three]
  simp only [tmod_ofNat_three, checked_mul_ofNat4]
  rw [if_neg hmul]
  simp only [Option.none_bind]

/-- Full characterization of `encoded_len` on natural input: it succeeds
with value `4 * ceil(n / 3) + 1` exactly when that value fits in `c_int`,
and fails (propagating `None`) otherwise. -/
theorem encoded_len_eq (n : Nat) :
    encoded_len (Int.ofNat n) =
      if encLenNat n + 1 ≤ 2147483647 then some (Int.ofNat (encLenNat n + 1))
      else none := by
  by_cases hmul : n / 3 * 4 ≤ 2147483647
  · rw [encoded_len_bind_form n hmul]
    by_cases h3 : n % 3 = 0
    · rw [if_neg (show ¬Int.ofNat (n % 3) ≠ 0 from not_not_intro (Int.ofNat_eq_zero.mpr h3))]
      rw [bind_checked_add1]
      have hE : encLenNat n = n / 3 * 4 := by simp [encLenNat, h3]
      exact if_congr (by rw [hE]) (by rw [hE]) rfl
    · rw [if_pos (show Int.ofNat (n % 3) ≠ 0 from fun hc => h3 (Int.ofNat_eq_zero.mp hc))]
      rw [checked_add_ofNat4]
      have hE : encLenNat n = n / 3 * 4 + 4 := by simp [encLenNat, h3]
      by_cases hadd : n / 3 * 4 + 4 ≤ 2147483647
      · rw [if_pos hadd, bind_checked_add1]
        exact if_congr (by rw [hE]) (by rw [hE]) rfl
      · rw [if_neg hadd, Option.none_bind, eq_comm, if_neg (by omega)]
  · rw [encoded_len_of_mul_overflow n hmul]
    have hE : n / 3 * 4 ≤ encLenNat n := by
      simp only [encLenNat]
      omega
    rw [eq_comm, if_neg (by omega)]

/-- For any character count within the `c_int` bound, `decoded_len` never
overflows and returns `3 * ceil(m / 4)`. -/
theorem decoded_len_eq (m : Nat) (h : m ≤ 2147483647) :
    decoded_len (Int.ofNat m) =
      some (Int.ofNat (m / 4 * 3 + if m % 4 = 0 then 0 else 3)) := by
  unfold decoded_len
  rw [tdiv_ofNat_four]
  simp only [tmod_ofNat_four, checked_mul_ofNat3]
  rw [if_pos (by omega)]
  simp only [Option.some_bind]
  by_cases h4 : m % 4 = 0
  · rw [if_neg (show ¬Int.ofNat (m % 4) ≠ 0 from not_not_intro (Int.ofNat_eq_zero.mpr h4)),
      if_pos h4, Nat.add_zero]
  · rw [if_pos (show Int.ofNat (m % 4) ≠ 0 from fun hc => h4 (Int.ofNat_eq_zero.mp hc))]
    rw [checked_add_ofNat3, if_pos (by omega), if_neg h4]

/-- Decoding inverts the alphabet map on every 6-bit value. -/
theorem b64Inv_b64Char : ∀ v, v < 64 → b64Inv (b64Char v) = some v := by decide

/-- Every character the alphabet map produces is a base64 symbol. -/
theorem b64Char_isB64 (v : Nat) : isB64Sym (b64Char v) = true := by
  simp only [isB64Sym, decide_eq_true_eq, b64Char]
  split_ifs <;> omega

/-- The padding symbol is a base64 symbol. -/
theorem isB64Sym_61 : isB64Sym 61 = true := rfl

/-- The alphabet map never produces the padding symbol. -/
theorem b64Char_ne_61 (v : Nat) : b64Char v ≠ 61 := by
  unfold b64Char
  split_ifs <;> omega

/-- Base64 symbols lie between `+` (43) and `z` (122). -/
theorem isB64_bounds (c : Nat) (h : isB64Sym c = true) : 43 ≤ c ∧ c ≤ 122 := by
  simp only [isB64Sym, decide_eq_true_eq] at h
  omega

/-- The encode transform emits `4 * ceil(n / 3)` characters. -/
theorem encodeGroups_length (b : List Nat) :
    (encodeGroups b).length = encLenNat b.length := by
  induction b using encodeGroups.induct <;>
    simp_all [encodeGroups, encLenNat, List.length_cons] <;>
    split_ifs <;> omega

/-- Every byte the encode transform emits is a base64 symbol. -/
theorem encodeGroups_all_b64 (b : List Nat) :
    ∀ c ∈ encodeGroups b, isB64Sym c = true := by
  induction b using encodeGroups.induct <;>
    simp_all [encodeGroups, b64Char_isB64, isB64Sym_61]

theorem wsHead_zero_of_b64 (c : Nat) (s : List Nat) (h : isB64Sym c = true) :
    wsHead (c :: s) = 0 := by
  obtain ⟨h1, h2⟩ := isB64_bounds c h
  simp only [wsHead]
  rw [if_neg (by omega), if_neg (by omega), if_neg (by omega), if_neg (by omega),
    if_neg (by omega)]

theorem wsHeadRev_zero_of_b64 (c : Nat) (s : List Nat) (h : isB64Sym c = true) :
    wsHeadRev (c :: s) = 0 := by
  obtain ⟨h1, h2⟩ := isB64_bounds c h
  simp only [wsHeadRev]
  rw [if_neg (by omega), if_neg (by omega), if_neg (by omega), if_neg (by omega),
    if_neg (by omega), if_neg (by omega)]

theorem trimStartFuel_eq_self (fuel : Nat) (s : List Nat) (h : wsHead s = 0) :
    trimStartFuel fuel s = s := by
  cases fuel with
  | zero => rfl
  | succ f =>
    unfold trimStartFuel
    rw [h]

theorem trimStart_eq_self (s : List Nat) (h : wsHead s = 0) : trimStart s = s :=
  trimStartFuel_eq_self _ _ h

theorem trimEndRevFuel_eq_self (fuel : Nat) (s : List Nat) (h : wsHeadRev s = 0) :
    trimEndRevFuel fuel s = s := by
  cases fuel with
  | zero => rfl
  | succ f =>
    unfold trimEndRevFuel
    rw [h]

theorem trimEndRev_eq_self (s : List Nat) (h : wsHeadRev s = 0) : trimEndRev s = s :=
  trimEndRevFuel_eq_self _ _ h

theorem trimStart_all_b64 (s : List Nat) (h : ∀ c ∈ s, isB64Sym c = true) :
    trimStart s = s := by
  cases s with
  | nil => rfl
  | cons c r => exact trimStart_eq_self _ (wsHead_zero_of_b64 c r (h c (by simp)))

theorem trimEndRev_all_b64 (s : List Nat) (h : ∀ c ∈ s, isB64Sym c = true) :
    trimEndRev s = s := by
  cases s with
  | nil => rfl
  | cons c r => exact trimEndRev_eq_self _ (wsHeadRev_zero_of_b64 c r (h c (by simp)))

theorem rustTrim_all_b64 (s : List Nat) (h : ∀ c ∈ s, isB64Sym c = true) :
    rustTrim s = s := by
  unfold rustTrim
  rw [trimStart_all_b64 s h]
  rw [trimEndRev_all_b64 s.reverse (by intro c hc; exact h c (List.mem_reverse.mp hc))]
  exact List.reverse_reverse s

theorem trimStart_cons_space (s : List Nat) : trimStart (32 :: s) = trimStart s := by
  show trimStartFuel (32 :: s).length (32 :: s) = trimStart s
  rw [List.length_cons]
  unfold trimStartFuel
  rw [show wsHead (32 :: s) = 1 from rfl]
  rfl

theorem trimEndRev_cons_newline (s : List Nat) :
    trimEndRev (10 :: s) = trimEndRev s := by
  show trimEndRevFuel (10 :: s).length (10 :: s) = trimEndRev s
  rw [List.length_cons]
  unfold trimEndRevFuel
  rw [show wsHeadRev (10 :: s) = 1 from rfl]
  rfl

theorem rustTrim_wrap (s : List Nat) (h : ∀ c ∈ s, isB64Sym c = true) :
    rustTrim (32 :: (s ++ [10])) = s := by
  unfold rustTrim
  rw [trimStart_cons_space]
  cases s with
  | nil => rfl
  | cons c r =>
    rw [List.cons_append]
    rw [trimStart_eq_self _ (wsHead_zero_of_b64 c _ (h c (by simp)))]
    rw [show (c :: (r ++ [10])).reverse = 10 :: (c :: r).reverse by simp]
    rw [trimEndRev_cons_newline]
    rw [trimEndRev_all_b64 (c :: r).reverse
      (by intro x hx; exact h x (List.mem_reverse.mp hx))]
    exact List.reverse_reverse (c :: r)

theorem take_len_append (xs ys : List Nat) : List.take xs.length (xs ++ ys) = xs := by
  rw [List.take_append_eq_append_take, List.take_length, Nat.sub_self, List.take_zero,
    List.append_nil]

theorem decodeGroups_spec (t : List Nat) :
    ∀ r, decodeGroups t = some r → t.length % 4 = 0 ∧ r.length = t.length / 4 * 3 := by
  induction t using decodeGroups.induct with
  | case1 =>
    intro r hr
    simp only [decodeGroups, Option.some.injEq] at hr
    subst hr
    simp
  | case2 c1 c2 c3 c4 rest ih =>
    intro r hr
    simp only [decodeGroups, Option.bind_eq_some, Option.some.injEq] at hr
    obtain ⟨v1, h1, v2, h2, v3, h3, v4, h4, tl, htl, hr⟩ := hr
    obtain ⟨hm, hl⟩ := ih tl htl
    subst hr
    simp only [List.length_cons]
    omega
  | case3 x h1 h2 =>
    intro r hr
    simp only [decodeGroups] at hr
    exact Option.noConfusion hr

theorem b64Inv_61 : b64Inv 61 = some 0 := rfl

theorem decodeGroups_encodeGroups (b : List Nat) (h : ∀ x ∈ b, x < 256) :
    decodeGroups (encodeGroups b) =
      some (b ++ List.replicate (padFill b.length) 0) := by
  induction b using encodeGroups.induct with
  | case1 b1 b2 b3 rest ih =>
    have hb1 : b1 < 256 := h b1 (by simp)
    have hb2 : b2 < 256 := h b2 (by simp)
    have hb3 : b3 < 256 := h b3 (by simp)
    have ihh := ih (fun x hx => h x (by simp [hx]))
    simp only [encodeGroups, decodeGroups]
    rw [b64Inv_b64Char _ (by omega), b64Inv_b64Char _ (by omega),
      b64Inv_b64Char _ (by omega), b64Inv_b64Char _ (by omega), ihh]
    simp only [Option.some_bind, Option.some.injEq]
    have e1 : b1 / 4 * 4 + (b1 % 4 * 16 + b2 / 16) / 16 = b1 := by omega
    have e2 : (b1 % 4 * 16 + b2 / 16) % 16 * 16 + (b2 % 16 * 4 + b3 / 64) / 4 = b2 := by
      omega
    have e3 : (b2 % 16 * 4 + b3 / 64) % 4 * 64 + b3 % 64 = b3 := by omega
    rw [e1, e2, e3]
    have hpf : padFill (b1 :: b2 :: b3 :: rest).length = padFill rest.length := by
      simp only [padFill, List.length_cons]
      omega
    rw [hpf]
    simp
  | case2 b1 b2 =>
    have hb1 : b1 < 256 := h b1 (by simp)
    have hb2 : b2 < 256 := h b2 (by simp)
    simp only [encodeGroups, decodeGroups]
    rw [b64Inv_b64Char _ (by omega), b64Inv_b64Char _ (by omega),
      b64Inv_b64Char _ (by omega), b64Inv_61]
    simp only [Option.some_bind, Option.some.injEq]
    have e1 : b1 / 4 * 4 + (b1 % 4 * 16 + b2 / 16) / 16 = b1 := by omega
    have e2 : (b1 % 4 * 16 + b2 / 16) % 16 * 16 + (b2 % 16 * 4) / 4 = b2 := by omega
    have e3 : b2 % 16 * 4 % 4 * 64 + 0 = 0 := by omega
    rw [e1, e2, e3]
    rfl
  | case3 b1 =>
    have hb1 : b1 < 256 := h b1 (by simp)
    simp only [encodeGroups, decodeGroups]
    rw [b64Inv_b64Char _ (by omega), b64Inv_b64Char _ (by omega), b64Inv_61]
    simp only [Option.some_bind, Option.some.injEq]
    have e1 : b1 / 4 * 4 + b1 % 4 * 16 / 16 = b1 := by omega
    have e2 : b1 % 4 * 16 % 16 * 16 + 0 / 4 = 0 := by omega
    rw [e1, e2]
    rfl
  | case4 =>
    rfl

theorem agreesAhead_length (t : List Nat) :
    ∀ s, agreesAhead t s = true → t.length ≤ s.length := by
  induction t with
  | nil =>
    intro s hs
    simp
  | cons a t ih =>
    intro s hs
    cases s with
    | nil => simp [agreesAhead] at hs
    | cons b r =>
      simp only [agreesAhead, Bool.and_eq_true] at hs
      have := ih r hs.2
      simp only [List.length_cons]
      omega

theorem endsWith_length (s t : List Nat) (h : endsWith s t = true) :
    t.length ≤ s.length := by
  unfold endsWith at h
  have := agreesAhead_length t.reverse s.reverse h
  simpa using this

theorem endsWith_pair_one (r : List Nat) (u v : Nat) :
    endsWith (r ++ [u, v]) [61] = true ↔ v = 61 := by
  simp only [endsWith, List.reverse_append, agreesAhead]
  constructor
  · intro h
    simp only [show ([u, v] : List Nat).reverse = [v, u] from rfl, List.cons_append,
      agreesAhead, Bool.and_eq_true, beq_iff_eq] at h
    omega
  · intro h
    subst h
    simp [agreesAhead]

theorem endsWith_pair_two (r : List Nat) (u v : Nat) :
    endsWith (r ++ [u, v]) [61, 61] = true ↔ v = 61 ∧ u = 61 := by
  simp only [endsWith, List.reverse_append]
  constructor
  · intro h
    simp only [show ([u, v] : List Nat).reverse = [v, u] from rfl, List.cons_append,
      show ([61, 61] : List Nat).reverse = [61, 61] from rfl,
      agreesAhead, Bool.and_eq_true, beq_iff_eq] at h
    omega
  · intro h
    obtain ⟨hv, hu⟩ := h
    subst hv
    subst hu
    simp [agreesAhead]

theorem encodeGroups_last (b : List Nat) :
    b ≠ [] →
      ∃ r u v, encodeGroups b = r ++ [u, v] ∧
        ((b.length % 3 = 0 ∧ v ≠ 61) ∨ (b.length % 3 = 1 ∧ u = 61 ∧ v = 61) ∨
          (b.length % 3 = 2 ∧ u ≠ 61 ∧ v = 61)) := by
  induction b using encodeGroups.induct with
  | case1 b1 b2 b3 rest ih =>
    intro hne
    by_cases hr : rest = []
    · subst hr
      refine ⟨[b64Char (b1 / 4), b64Char (b1 % 4 * 16 + b2 / 16)],
        b64Char (b2 % 16 * 4 + b3 / 64), b64Char (b3 % 64), by simp [encodeGroups], ?_⟩
      exact Or.inl ⟨by simp, b64Char_ne_61 _⟩
    · obtain ⟨r, u, v, heq, hdis⟩ := ih hr
      refine ⟨b64Char (b1 / 4) :: b64Char (b1 % 4 * 16 + b2 / 16) ::
        b64Char (b2 % 16 * 4 + b3 / 64) :: b64Char (b3 % 64) :: r, u, v, ?_, ?_⟩
      · simp only [encodeGroups, heq, List.cons_append]
      · have hl : (b1 :: b2 :: b3 :: rest).length % 3 = rest.length % 3 := by
          simp only [List.length_cons]
          omega
        rw [hl]
        exact hdis
  | case2 b1 b2 =>
    intro hne
    refine ⟨[b64Char (b1 / 4), b64Char (b1 % 4 * 16 + b2 / 16)],
      b64Char (b2 % 16 * 4), 61, by simp [encodeGroups], ?_⟩
    exact Or.inr (Or.inr ⟨by simp, b64Char_ne_61 _, rfl⟩)
  | case3 b1 =>
    intro hne
    refine ⟨[b64Char (b1 / 4), b64Char (b1 % 4 * 16)], 61, 61,
      by simp [encodeGroups], ?_⟩
    exact Or.inr (Or.inl ⟨by simp, rfl, rfl⟩)
  | case4 =>
    intro hne
    exact absurd rfl hne

theorem stripPad_encodeGroups (b : List Nat) :
    stripPad (encodeGroups b) (b ++ List.replicate (padFill b.length) 0) = b := by
  by_cases hne : b = []
  · subst hne
    rfl
  · obtain ⟨r, u, v, heq, hdis⟩ := encodeGroups_last b hne
    unfold stripPad
    rw [heq]
    rcases hdis with ⟨h3, hv⟩ | ⟨h3, hu, hv⟩ | ⟨h3, hu, hv⟩
    · rw [if_neg (fun hc => hv ((endsWith_pair_one r u v).mp hc))]
      have : padFill b.length = 0 := by
        simp only [padFill]
        omega
      rw [this]
      simp
    · subst hu
      subst hv
      rw [if_pos ((endsWith_pair_one r 61 61).mpr rfl),
        if_pos ((endsWith_pair_two r 61 61).mpr ⟨rfl, rfl⟩)]
      have hpf : padFill b.length = 2 := by
        simp only [padFill]
        omega
      rw [hpf, show List.replicate 2 (0 : Nat) = [0] ++ [0] from rfl,
        ← List.append_assoc, List.dropLast_concat, List.dropLast_concat]
    · subst hv
      rw [if_pos ((endsWith_pair_one r u 61).mpr rfl)]
      rw [if_neg (fun hc => hu ((endsWith_pair_two r u 61).mp hc).2)]
      have hpf : padFill b.length = 1 := by
        simp only [padFill]
        omega
      rw [hpf, show List.replicate 1 (0 : Nat) = [0] from rfl, List.dropLast_concat]

theorem encLenNat_bound (n : Nat) (h : n ≤ 1610612733) : encLenNat n + 1 ≤ 2147483645 := by
  simp only [encLenNat]
  split_ifs <;> omega

theorem encode_block_eq (src : List Nat) (h : src.length ≤ 1610612733) :
    encode_block src = some (encodeGroups src) := by
  unfold encode_block
  rw [if_pos (show src.length ≤ INT_MAX_NAT by simp only [INT_MAX_NAT]; omega)]
  rw [encoded_len_eq src.length]
  rw [if_pos (by have := encLenNat_bound src.length h; omega)]
  simp only [Option.elim_some, EVP_EncodeBlock]
  rw [List.append_assoc, take_len_append]

theorem decode_block_of_trim (b s : List Nat) (h256 : ∀ x ∈ b, x < 256)
    (hlen : b.length ≤ 1610612733) (htrim : rustTrim s = encodeGroups b) :
    decode_block s = DecodeOutcome.ok b := by
  unfold decode_block
  simp only [htrim]
  have hlen2 : (encodeGroups b).length = encLenNat b.length := encodeGroups_length b
  have hbound : encLenNat b.length + 1 ≤ 2147483645 := encLenNat_bound _ hlen
  rw [hlen2]
  rw [if_pos (show encLenNat b.length ≤ INT_MAX_NAT by simp only [INT_MAX_NAT]; omega)]
  rw [decoded_len_eq _ (by omega)]
  rw [show EVP_DecodeBlock (encodeGroups b) =
      some (b ++ List.replicate (padFill b.length) 0,
        (b ++ List.replicate (padFill b.length) 0).length) by
    unfold EVP_DecodeBlock
    rw [decodeGroups_encodeGroups b h256]
    rfl]
  simp only [Option.elim_some]
  rw [take_len_append, stripPad_encodeGroups b]

theorem encode_block_none_of_big (src : List Nat) (h1 : src.length ≤ 2147483647)
    (h2 : 1610612733 < src.length) : encode_block src = none := by
  unfold encode_block
  rw [if_pos (show src.length ≤ INT_MAX_NAT by simp only [INT_MAX_NAT]; omega)]
  rw [encoded_len_eq src.length]
  rw [if_neg (show ¬encLenNat src.length + 1 ≤ 2147483647 by
    simp only [encLenNat]
    split_ifs <;> omega)]
  rfl

theorem decodeGroups_none_of_mod (t : List Nat) (h : t.length % 4 ≠ 0) :
    decodeGroups t = none := by
  cases hd : decodeGroups t with
  | none => rfl
  | some r => exact absurd (decodeGroups_spec t r hd).1 h

theorem endsWith_two_one (t : List Nat) (h : endsWith t [61, 61] = true) :
    endsWith t [61] = true := by
  unfold endsWith at h ⊢
  rw [show ([61, 61] : List Nat).reverse = [61, 61] from rfl] at h
  rw [show ([61] : List Nat).reverse = [61] from rfl]
  cases ht : t.reverse with
  | nil =>
    rw [ht] at h
    simp [agreesAhead] at h
  | cons a l =>
    rw [ht] at h
    simp only [agreesAhead, Bool.and_eq_true] at h
    simp only [agreesAhead, Bool.and_eq_true]
    exact ⟨h.1, trivial⟩

theorem stripPad_length (t raw : List Nat)
    (hne : endsWith t [61] = true → 2 ≤ raw.length) :
    (stripPad t raw).length + padCount t = raw.length := by
  unfold stripPad padCount
  by_cases h2 : endsWith t [61, 61] = true
  · have h1 := endsWith_two_one t h2
    have hr := hne h1
    rw [if_pos h1, if_pos h2, if_pos h2]
    simp only [List.length_dropLast]
    omega
  · by_cases h1 : endsWith t [61] = true
    · have hr := hne h1
      rw [if_pos h1, if_neg h2, if_neg h2, if_pos h1]
      simp only [List.length_dropLast]
      omega
    · rw [if_neg h1, if_neg h2, if_neg h1]
      omega

theorem decode_block_ok_inv (s out : List Nat) (h : decode_block s = DecodeOutcome.ok out) :
    ∃ raw, decodeGroups (rustTrim s) = some raw ∧ stripPad (rustTrim s) raw = out := by
  unfold decode_block at h
  by_cases hI : (rustTrim s).length ≤ INT_MAX_NAT
  · rw [if_pos hI] at h
    rw [decoded_len_eq _ (by simpa [INT_MAX_NAT] using hI)] at h
    simp only [Option.elim_some] at h
    cases hd : decodeGroups (rustTrim s) with
    | none =>
      rw [show EVP_DecodeBlock (rustTrim s) = none from by
        unfold EVP_DecodeBlock
        rw [hd]
        rfl] at h
      simp only [Option.elim_none] at h
      exact absurd h (by simp)
    | some raw =>
      rw [show EVP_DecodeBlock (rustTrim s) = some (raw, raw.length) from by
        unfold EVP_DecodeBlock
        rw [hd]
        rfl] at h
      simp only [Option.elim_some] at h
      rw [take_len_append] at h
      refine ⟨raw, rfl, ?_⟩
      injection h
  · rw [if_neg hI] at h
    exact absurd h (by simp)

theorem encode_block_some_inv (src out : List Nat) (h : encode_block src = some out) :
    out = encodeGroups src := by
  unfold encode_block at h
  by_cases hI : src.length ≤ INT_MAX_NAT
  · rw [if_pos hI, encoded_len_eq src.length] at h
    by_cases hfit : encLenNat src.length + 1 ≤ 2147483647
    · rw [if_pos hfit] at h
      simp only [Option.elim_some, EVP_EncodeBlock] at h
      rw [List.append_assoc, take_len_append] at h
      injection h with h
      exact h.symm
    · rw [if_neg hfit] at h
      simp only [Option.elim_none] at h
      exact Option.noConfusion h
  · rw [if_neg hI] at h
    exact Option.noConfusion h

theorem decode_block_eval (s : List Nat) (h : (rustTrim s).length ≤ INT_MAX_NAT) :
    (decodeGroups (rustTrim s) = none ∧ decode_block s = DecodeOutcome.err) ∨
    (∃ raw, decodeGroups (rustTrim s) = some raw ∧
      decode_block s = DecodeOutcome.ok (stripPad (rustTrim s) raw)) := by
  unfold decode_block
  rw [if_pos h, decoded_len_eq _ (by simpa [INT_MAX_NAT] using h)]
  simp only [Option.elim_some]
  cases hd : decodeGroups (rustTrim s) with
  | none =>
    left
    refine ⟨rfl, ?_⟩
    rw [show EVP_DecodeBlock (rustTrim s) = none from by
      unfold EVP_DecodeBlock
      rw [hd]
      rfl]
    rfl
  | some raw =>
    right
    refine ⟨raw, rfl, ?_⟩
    rw [show EVP_DecodeBlock (rustTrim s) = some (raw, raw.length) from by
      unfold EVP_DecodeBlock
      rw [hd]
      rfl]
    simp only [Option.elim_some]
    rw [take_len_append]

theorem decode_block_panic_of_big (s : List Nat) (h : INT_MAX_NAT < (rustTrim s).length) :
    decode_block s = DecodeOutcome.panic := by
  unfold decode_block
  rw [if_neg (by omega)]

/-- C1 (amended): for every byte sequence of length at most 1610612733 (the
largest length for which the padded output length `4 * ceil(n/3) + 1` still
fits a signed 32-bit integer, so `encoded_len` cannot overflow), decoding
the encoding returns exactly the original bytes. -/
theorem b64_C1_roundtrip (b : List Nat) (h256 : ∀ x ∈ b, x < 256)
    (hlen : b.length ≤ 1610612733) :
    ∃ enc, encode_block b = some enc ∧ decode_block enc = DecodeOutcome.ok b :=
  ⟨encodeGroups b, encode_block_eq b hlen,
    decode_block_of_trim b (encodeGroups b) h256 hlen
      (rustTrim_all_b64 _ (encodeGroups_all_b64 b))⟩

/-- C1 counterexample: the sequence of 2147483647 zero bytes satisfies the
claimed precondition (length at most the signed 32-bit maximum), yet
`encode_block` panics on it (the length arithmetic overflows), so the round
trip does not return the input. -/
theorem b64_C1_counterexample :
    (∀ x ∈ List.replicate 2147483647 (0 : Nat), x < 256) ∧
    (List.replicate 2147483647 (0 : Nat)).length ≤ INT_MAX_NAT ∧
    ¬∃ enc, encode_block (List.replicate 2147483647 (0 : Nat)) = some enc ∧
      decode_block enc = DecodeOutcome.ok (List.replicate 2147483647 (0 : Nat)) := by
  refine ⟨?_, ?_, ?_⟩
  · intro x hx
    rw [List.eq_of_mem_replicate hx]
    norm_num
  · rw [List.length_replicate]
    norm_num [INT_MAX_NAT]
  · rintro ⟨enc, he, _⟩
    rw [encode_block_none_of_big _ (by rw [List.length_replicate])
      (by rw [List.length_replicate]; norm_num)] at he
    exact Option.noConfusion he

/-- C1 witness: the round trip at the concrete input `"foob"`. -/
theorem b64_C1_witness :
    ∃ enc, encode_block [102, 111, 111, 98] = some enc ∧
      decode_block enc = DecodeOutcome.ok [102, 111, 111, 98] :=
  b64_C1_roundtrip [102, 111, 111, 98] (by decide) (by decide)

/-- C2 (amended): for every byte sequence of length at most 1610612733,
`encode_block` reaches no failure path: the assertion passes, the
encoded-length `unwrap` succeeds, and a string is returned. -/
theorem b64_C2_encode_total (src : List Nat) (h : src.length ≤ 1610612733) :
    ∃ out, encode_block src = some out :=
  ⟨encodeGroups src, encode_block_eq src h⟩

/-- C2 counterexample: 2147483646 bytes satisfy the claimed precondition
(length at most the signed 32-bit maximum) but the encoded-length
calculator overflows, so the `unwrap` inside `encode_block` panics. -/
theorem b64_C2_counterexample :
    (List.replicate 2147483646 (0 : Nat)).length ≤ INT_MAX_NAT ∧
    encode_block (List.replicate 2147483646 (0 : Nat)) = none := by
  constructor
  · rw [List.length_replicate]
    norm_num [INT_MAX_NAT]
  · exact encode_block_none_of_big _ (by rw [List.length_replicate]; norm_num)
      (by rw [List.length_replicate]; norm_num)

/-- C2 witness: encoding succeeds on a small concrete input. -/
theorem b64_C2_witness : ∃ out, encode_block [0, 1, 2] = some out :=
  b64_C2_encode_total [0, 1, 2] (by decide)

/-- C3 (amended): for every byte sequence of length at most 1610612733,
`encode_block` returns a string whose length is 0 for empty input and
`4 * ceil(n / 3)` otherwise. -/
theorem b64_C3_length (src : List Nat) (h : src.length ≤ 1610612733) :
    ∃ out, encode_block src = some out ∧
      out.length = if src.length = 0 then 0 else 4 * ((src.length + 2) / 3) := by
  refine ⟨encodeGroups src, encode_block_eq src h, ?_⟩
  rw [encodeGroups_length]
  simp only [encLenNat]
  split_ifs <;> omega

/-- C3 counterexample: 2147483645 bytes satisfy the claimed length
precondition, yet `encode_block` panics, so no output length exists. -/
theorem b64_C3_counterexample :
    (List.replicate 2147483645 (0 : Nat)).length ≤ INT_MAX_NAT ∧
    ¬∃ out, encode_block (List.replicate 2147483645 (0 : Nat)) = some out ∧
      out.length = 4 * (((List.replicate 2147483645 (0 : Nat)).length + 2) / 3) := by
  constructor
  · rw [List.length_replicate]
    norm_num [INT_MAX_NAT]
  · rintro ⟨out, ho, _⟩
    rw [encode_block_none_of_big _ (by rw [List.length_replicate]; norm_num)
      (by rw [List.length_replicate]; norm_num)] at ho
    exact Option.noConfusion ho

/-- C3 witness: the length law at the concrete input `"fooba"`. -/
theorem b64_C3_witness :
    ∃ out, encode_block [102, 111, 111, 98, 97] = some out ∧
      out.length = if ([102, 111, 111, 98, 97] : List Nat).length = 0 then 0
        else 4 * ((([102, 111, 111, 98, 97] : List Nat).length + 2) / 3) :=
  b64_C3_length [102, 111, 111, 98, 97] (by decide)

/-- C4: the seven literal scenarios encode to their listed outputs, every
listed output decodes back to its input, and every output wrapped as
a space, the text, and a newline also decodes back to its input
(ASCII codes: "f" is [102], "Zg==" is [90,103,61,61], and so on). -/
theorem b64_C4_literals :
    encode_block [] = some [] ∧
    encode_block [102] = some [90, 103, 61, 61] ∧
    encode_block [102, 111] = some [90, 109, 56, 61] ∧
    encode_block [102, 111, 111] = some [90, 109, 57, 118] ∧
    encode_block [102, 111, 111, 98] = some [90, 109, 57, 118, 89, 103, 61, 61] ∧
    encode_block [102, 111, 111, 98, 97] = some [90, 109, 57, 118, 89, 109, 69, 61] ∧
    encode_block [102, 111, 111, 98, 97, 114] =
      some [90, 109, 57, 118, 89, 109, 70, 121] ∧
    decode_block [] = DecodeOutcome.ok [] ∧
    decode_block [90, 103, 61, 61] = DecodeOutcome.ok [102] ∧
    decode_block [90, 109, 56, 61] = DecodeOutcome.ok [102, 111] ∧
    decode_block [90, 109, 57, 118] = DecodeOutcome.ok [102, 111, 111] ∧
    decode_block [90, 109, 57, 118, 89, 103, 61, 61] =
      DecodeOutcome.ok [102, 111, 111, 98] ∧
    decode_block [90, 109, 57, 118, 89, 109, 69, 61] =
      DecodeOutcome.ok [102, 111, 111, 98, 97] ∧
    decode_block [90, 109, 57, 118, 89, 109, 70, 121] =
      DecodeOutcome.ok [102, 111, 111, 98, 97, 114] ∧
    decode_block (32 :: [] ++ [10]) = DecodeOutcome.ok [] ∧
    decode_block (32 :: [90, 103, 61, 61] ++ [10]) = DecodeOutcome.ok [102] ∧
    decode_block (32 :: [90, 109, 56, 61] ++ [10]) = DecodeOutcome.ok [102, 111] ∧
    decode_block (32 :: [90, 109, 57, 118] ++ [10]) =
      DecodeOutcome.ok [102, 111, 111] ∧
    decode_block (32 :: [90, 109, 57, 118, 89, 103, 61, 61] ++ [10]) =
      DecodeOutcome.ok [102, 111, 111, 98] ∧
    decode_block (32 :: [90, 109, 57, 118, 89, 109, 69, 61] ++ [10]) =
      DecodeOutcome.ok [102, 111, 111, 98, 97] ∧
    decode_block (32 :: [90, 109, 57, 118, 89, 109, 70, 121] ++ [10]) =
      DecodeOutcome.ok [102, 111, 111, 98, 97, 114] := by
  decide

/-- C5: for every nonnegative `c_int` input, `encoded_len` returns exactly
`(src_len / 3) * 4`, plus 4 when the division has a remainder, plus 1,
whenever that value fits in a signed 32-bit integer, and `None` on
overflow, never a wrapped value. -/
theorem b64_C5_encoded_len (n : Int) (h0 : 0 ≤ n) (h1 : n ≤ c_int_max) :
    encoded_len n =
      if n.tdiv 3 * 4 + (if n.tmod 3 = 0 then 0 else 4) + 1 ≤ c_int_max
      then some (n.tdiv 3 * 4 + (if n.tmod 3 = 0 then 0 else 4) + 1)
      else none := by
  obtain ⟨m, rfl⟩ := Int.eq_ofNat_of_zero_le h0
  rw [← Int.ofNat_eq_natCast]
  rw [encoded_len_eq m, tdiv_ofNat_three, tmod_ofNat_three]
  by_cases h3 : m % 3 = 0
  · rw [if_pos (show Int.ofNat (m % 3) = 0 from Int.ofNat_eq_zero.mpr h3)]
    refine if_congr ?_ ?_ rfl
    · rw [show encLenNat m = m / 3 * 4 by simp [encLenNat, h3]]
      simp only [Int.ofNat_eq_natCast, c_int_max]
      omega
    · refine congrArg some ?_
      rw [show encLenNat m = m / 3 * 4 by simp [encLenNat, h3]]
      simp only [Int.ofNat_eq_natCast]
      push_cast
      ring
  · rw [if_neg (show ¬Int.ofNat (m % 3) = 0 from fun hc => h3 (Int.ofNat_eq_zero.mp hc))]
    refine if_congr ?_ ?_ rfl
    · rw [show encLenNat m = m / 3 * 4 + 4 by simp [encLenNat, h3]]
      simp only [Int.ofNat_eq_natCast, c_int_max]
      omega
    · refine congrArg some ?_
      rw [show encLenNat m = m / 3 * 4 + 4 by simp [encLenNat, h3]]
      simp only [Int.ofNat_eq_natCast]
      push_cast
      ring

/-- C5 witness: the characterization applied at the concrete input 9. -/
theorem b64_C5_witness :
    encoded_len 9 =
      if (9 : Int).tdiv 3 * 4 + (if (9 : Int).tmod 3 = 0 then 0 else 4) + 1 ≤ c_int_max
      then some ((9 : Int).tdiv 3 * 4 + (if (9 : Int).tmod 3 = 0 then 0 else 4) + 1)
      else none :=
  b64_C5_encoded_len 9 (by decide) (by decide)

/-- C6 (amended): for every byte sequence of length at most 1610612733,
decoding the encoding surrounded by a leading space and a trailing newline
succeeds and returns the original bytes. -/
theorem b64_C6_ws_roundtrip (b : List Nat) (h256 : ∀ x ∈ b, x < 256)
    (hlen : b.length ≤ 1610612733) :
    ∃ enc, encode_block b = some enc ∧
      decode_block (32 :: (enc ++ [10])) = DecodeOutcome.ok b :=
  ⟨encodeGroups b, encode_block_eq b hlen,
    decode_block_of_trim b _ h256 hlen (rustTrim_wrap _ (encodeGroups_all_b64 b))⟩

/-- C6 counterexample: 2147483644 bytes satisfy the claimed precondition,
yet `encode_block` panics, so the whitespace-wrapped round trip does not
return the input. -/
theorem b64_C6_counterexample :
    (∀ x ∈ List.replicate 2147483644 (0 : Nat), x < 256) ∧
    (List.replicate 2147483644 (0 : Nat)).length ≤ INT_MAX_NAT ∧
    ¬∃ enc, encode_block (List.replicate 2147483644 (0 : Nat)) = some enc ∧
      decode_block (32 :: (enc ++ [10])) =
        DecodeOutcome.ok (List.replicate 2147483644 (0 : Nat)) := by
  refine ⟨?_, ?_, ?_⟩
  · intro x hx
    rw [List.eq_of_mem_replicate hx]
    norm_num
  · rw [List.length_replicate]
    norm_num [INT_MAX_NAT]
  · rintro ⟨enc, he, _⟩
    rw [encode_block_none_of_big _ (by rw [List.length_replicate]; norm_num)
      (by rw [List.length_replicate]; norm_num)] at he
    exact Option.noConfusion he

/-- C6 witness: the whitespace-wrapped round trip at `"foobar"`. -/
theorem b64_C6_witness :
    ∃ enc, encode_block [102, 111, 111, 98, 97, 114] = some enc ∧
      decode_block (32 :: (enc ++ [10])) =
        DecodeOutcome.ok [102, 111, 111, 98, 97, 114] :=
  b64_C6_ws_roundtrip [102, 111, 111, 98, 97, 114] (by decide) (by decide)

/-- C7 (amended): for every input whose trimmed length is at most the
signed 32-bit maximum and not a multiple of 4, `decode_block` returns the
recoverable error; and input that trims to nothing decodes to the empty
byte sequence. -/
theorem b64_C7_malformed :
    (∀ s : List Nat, (rustTrim s).length ≤ INT_MAX_NAT →
      (rustTrim s).length % 4 ≠ 0 → decode_block s = DecodeOutcome.err) ∧
    (∀ s : List Nat, rustTrim s = [] → decode_block s = DecodeOutcome.ok []) := by
  constructor
  · intro s hI hmod
    rcases decode_block_eval s hI with ⟨hd, he⟩ | ⟨raw, hd, he⟩
    · exact he
    · exact absurd (decodeGroups_spec _ raw hd).1 hmod
  · intro s htrim
    rcases decode_block_eval s (by rw [htrim]; norm_num [INT_MAX_NAT]) with
      ⟨hd, he⟩ | ⟨raw, hd, he⟩
    · rw [htrim] at hd
      exact absurd hd (by simp [decodeGroups])
    · rw [htrim] at hd
      simp only [decodeGroups, Option.some.injEq] at hd
      subst hd
      rw [he, htrim]
      rfl

/-- C7 counterexample: 2147483649 copies of the alphabet character `A` trim
to themselves, have length not a multiple of 4, and yet `decode_block`
aborts on the length assertion instead of returning the recoverable
error. -/
theorem b64_C7_counterexample :
    (rustTrim (List.replicate 2147483649 (65 : Nat))).length % 4 = 1 ∧
    decode_block (List.replicate 2147483649 (65 : Nat)) = DecodeOutcome.panic := by
  have htrim : rustTrim (List.replicate 2147483649 (65 : Nat)) =
      List.replicate 2147483649 65 :=
    rustTrim_all_b64 _ (fun c hc => by rw [List.eq_of_mem_replicate hc]; rfl)
  constructor
  · rw [htrim, List.length_replicate]
  · exact decode_block_panic_of_big _
      (by rw [htrim, List.length_replicate]; norm_num [INT_MAX_NAT])

/-- C7 witness: a one-character input errs, and pure whitespace decodes to
the empty sequence. -/
theorem b64_C7_witness :
    decode_block [65] = DecodeOutcome.err ∧
    decode_block [32, 10] = DecodeOutcome.ok [] :=
  ⟨b64_C7_malformed.1 [65] (by decide) (by decide),
    b64_C7_malformed.2 [32, 10] (by decide)⟩

/-- C8: on every successful decode, the padding-stripping step removes
exactly `padCount` bytes from the transform output: two when the trimmed
text ends with `==`, one when it ends with a single `=`, zero otherwise,
and never more than two. -/
theorem b64_C8_padding (s out : List Nat) (h : decode_block s = DecodeOutcome.ok out) :
    ∃ raw, decodeGroups (rustTrim s) = some raw ∧
      padCount (rustTrim s) ≤ 2 ∧
      out.length + padCount (rustTrim s) = raw.length := by
  obtain ⟨raw, hd, hstrip⟩ := decode_block_ok_inv s out h
  refine ⟨raw, hd, ?_, ?_⟩
  · unfold padCount
    split_ifs <;> omega
  · have hne : endsWith (rustTrim s) [61] = true → 2 ≤ raw.length := by
      intro hew
      have h1 : 1 ≤ (rustTrim s).length := by
        simpa using endsWith_length _ _ hew
      have h2 := (decodeGroups_spec _ raw hd).1
      have h3 := (decodeGroups_spec _ raw hd).2
      omega
    have hstriplen := stripPad_length (rustTrim s) raw hne
    rw [hstrip] at hstriplen
    exact hstriplen

/-- C8 witness: decoding `"===="` succeeds with one byte and strips exactly
two bytes of the three the transform produced. -/
theorem b64_C8_witness :
    decode_block [61, 61, 61, 61] = DecodeOutcome.ok [0] ∧
    ∃ raw, decodeGroups (rustTrim [61, 61, 61, 61]) = some raw ∧
      padCount (rustTrim [61, 61, 61, 61]) ≤ 2 ∧
      ([0] : List Nat).length + padCount (rustTrim [61, 61, 61, 61]) = raw.length :=
  ⟨by decide, b64_C8_padding [61, 61, 61, 61] [0] (by decide)⟩

/-- C9: every byte of every string `encode_block` returns is a single-byte
base64 symbol (alphabet or `=`) and in particular plain ASCII, so the
unchecked byte-to-string reinterpretation is sound. -/
theorem b64_C9_ascii (src out : List Nat) (h : encode_block src = some out) :
    ∀ c ∈ out, isB64Sym c = true ∧ c < 128 := by
  intro c hc
  rw [encode_block_some_inv src out h] at hc
  have hb := encodeGroups_all_b64 src c hc
  refine ⟨hb, ?_⟩
  have := isB64_bounds c hb
  omega

/-- C9 witness: the property applied to the concrete encoding of `"fo"` at
its third byte, the digit `8`. -/
theorem b64_C9_witness : isB64Sym 56 = true ∧ 56 < 128 :=
  b64_C9_ascii [102, 111] [90, 109, 56, 61] (by decide) 56 (by decide)

/-- C10: under the length precondition, `decode_block` returns the
recoverable error exactly when the block transform fails on the trimmed
input, and never panics; on error no decoded bytes are carried (the `err`
constructor holds none). -/
theorem b64_C10_errors (s : List Nat) (h : (rustTrim s).length ≤ INT_MAX_NAT) :
    (decode_block s = DecodeOutcome.err ↔ EVP_DecodeBlock (rustTrim s) = none) ∧
    decode_block s ≠ DecodeOutcome.panic := by
  have hEVP : EVP_DecodeBlock (rustTrim s) = none ↔ decodeGroups (rustTrim s) = none := by
    unfold EVP_DecodeBlock
    cases decodeGroups (rustTrim s) with
    | none => simp
    | some raw => simp
  rcases decode_block_eval s h with ⟨hd, he⟩ | ⟨raw, hd, he⟩
  · rw [he, hEVP, hd]
    exact ⟨⟨fun _ => rfl, fun _ => rfl⟩, by simp⟩
  · rw [he, hEVP, hd]
    refine ⟨⟨fun hcon => absurd hcon (by simp), fun hcon => absurd hcon (by simp)⟩, by simp⟩

/-- C10 witness: the characterization at the concrete invalid input `"!"`. -/
theorem b64_C10_witness :
    (decode_block [33] = DecodeOutcome.err ↔ EVP_DecodeBlock (rustTrim [33]) = none) ∧
    decode_block [33] ≠ DecodeOutcome.panic :=
  b64_C10_errors [33] (by decide)
